import Mathlib

/-
Verification of the ADMM Generalized-Lasso solver in
src/spmimage/linear_model/admm.py.

The value-level embedding works over ℝ with Fin-indexed vectors and
Mathlib matrices; `np.linalg.norm` of a vector is `Real.sqrt` of the sum
of squares, `np.sign` is `Real.sign`, and the in-place column loop of
`_admm` is an explicit structural recursion on the remaining fuel.
Because the source allocates the dual variable `h_t` with `w_t`'s shape
(line 45: `np.zeros(w_t.shape)`), a typed embedding of the iteration is
only well-formed when the transform matrix D is square (m = p); the
shape behaviour for rectangular D, together with numpy's dot / broadcast
/ squeeze shape semantics, is modelled separately on ℕ-valued shapes.
-/

open Matrix BigOperators

/- ## Shape model: numpy shape semantics of the initialization and return.

`np.dot` on 2-D arrays of shapes (a, b) and (b', c) succeeds iff b = b',
giving (a, c); transposition swaps the axes; `np.zeros(s)` has shape s;
1-D elementwise broadcasting of lengths a, b succeeds iff a = b or one of
them is 1; `np.squeeze` removes all axes of size 1. -/

def dotShape (s1 s2 : ℕ × ℕ) : Option (ℕ × ℕ) :=
  if s1.2 = s2.1 then some (s1.1, s2.2) else none

def transposeShape (s : ℕ × ℕ) : ℕ × ℕ := (s.2, s.1)

def zerosShape (s : ℕ × ℕ) : ℕ × ℕ := s

/-- Shapes of `w_t = X.T.dot(y) / n_samples`, `z_t = D.dot(w_t.copy())` and
`h_t = np.zeros(w_t.shape)` from lines 43-45 of `_admm`, given the shapes
of X, y and D.  Note the source gives `h_t` the shape of `w_t`, not of
`z_t`. -/
def admmInitShapes (xs ys ds : ℕ × ℕ) : Option ((ℕ × ℕ) × (ℕ × ℕ) × (ℕ × ℕ)) :=
  (dotShape (transposeShape xs) ys).bind fun ws =>
    (dotShape ds ws).map fun zs => (ws, zs, zerosShape ws)

/-- Numpy 1-D broadcasting of two vector lengths, as used by the
elementwise expression `z_t[:, k] - h_t[:, k] / rho` in the W-update. -/
def broadcast1 (a b : ℕ) : Option ℕ :=
  if a = b then some a else if a = 1 then some b else if b = 1 then some a else none

/-- Shape effect of `np.squeeze`: axes of size 1 are removed. -/
def squeezeShape (l : List ℕ) : List ℕ := l.filter (fun d => d ≠ 1)

/-- Shape of the first return value `np.squeeze(z_t)` of `_admm`
(line 70), given that `z_t` has shape m × k. -/
def admmReturnShape (m k : ℕ) : List ℕ := squeezeShape [m, k]

/- ## Value model -/

/-- `_soft_threshold` (line 12-13):
`np.where(np.abs(X) <= thresh, 0, X - thresh * np.sign(X))`, elementwise. -/
noncomputable def _soft_threshold {ι : Type} (x : ι → ℝ) (thresh : ℝ) : ι → ℝ :=
  fun i => if |x i| ≤ thresh then 0 else x i - thresh * Real.sign (x i)

/-- `_cost_function` (line 16-18):
`np.linalg.norm(y - X.dot(w)) / n_samples + alpha * np.sum(np.abs(z))`. -/
noncomputable def _cost_function {n p q : ℕ} (X : Matrix (Fin n) (Fin p) ℝ)
    (y : Fin n → ℝ) (w : Fin p → ℝ) (z : Fin q → ℝ) (alpha : ℝ) : ℝ :=
  Real.sqrt (∑ i, (y i - X.mulVec w i) ^ 2) / n + alpha * ∑ j, |z j|

/-- State of one target column inside the `_admm` loop: the column slices
`w_t[:, k]`, `z_t[:, k]`, `h_t[:, k]`.  Since `h_t` is allocated with
`w_t`'s shape, all three have length p (forcing D to be square in the
typed model). -/
structure ColState (p : ℕ) where
  w : Fin p → ℝ
  z : Fin p → ℝ
  h : Fin p → ℝ

/-- One iteration body of the `_admm` inner loop (lines 58-60), executed
in order: the Z-update reads the already-updated w, and the H-update
reads the already-updated w and z. -/
noncomputable def admmStep {n p : ℕ} (X : Matrix (Fin n) (Fin p) ℝ) (yk : Fin n → ℝ)
    (D M : Matrix (Fin p) (Fin p) ℝ) (rho thr : ℝ) (s : ColState p) : ColState p :=
  let w1 := M.mulVec ((fun i => Xᵀ.mulVec yk i / n) + rho • Dᵀ.mulVec (s.z - fun j => s.h j / rho))
  let z1 := _soft_threshold (D.mulVec w1 + fun j => s.h j / rho) thr
  let h1 := s.h + rho • (D.mulVec w1 - z1)
  ⟨w1, z1, h1⟩

/-- The inner `for t in range(max_iter)` loop of `_admm` (lines 56-68).
`fuel` is the number of loop indices still to run and `t` the next loop
index; `c` is the cost from the previous comparison.  On `break` at index
`t` the pair `(state, t)` is returned; when the fuel runs out the last
executed index `t - 1` is recorded, matching `n_iter_.append(t)` after a
loop that exhausted its range.  (For `max_iter = 0` the source raises a
`NameError`; the ℕ-truncated `t - 1 = 0` of this model is only ever used
under the documented precondition `max_iter ≥ 1`.) -/
noncomputable def admmLoop {p : ℕ} (step : ColState p → ColState p)
    (costOf : ColState p → ℝ) (tol : ℝ) :
    ℕ → ℕ → ColState p → ℝ → ColState p × ℕ
  | 0, t, s, _ => (s, t - 1)
  | fuel + 1, t, s, c =>
      let s1 := step s
      let c1 := costOf s1
      if |c1 - c| < tol then (s1, t) else admmLoop step costOf tol fuel (t + 1) s1 c1

/-- The whole per-column computation of `_admm` (lines 53-68): initial
cost, then the update loop. -/
noncomputable def admmColumnRun {n p : ℕ} (X : Matrix (Fin n) (Fin p) ℝ) (yk : Fin n → ℝ)
    (D M : Matrix (Fin p) (Fin p) ℝ) (alpha rho thr tol : ℝ) (maxIter : ℕ)
    (s0 : ColState p) : ColState p × ℕ :=
  admmLoop (admmStep X yk D M rho thr) (fun s => _cost_function X yk s.w s.z alpha) tol
    maxIter 0 s0 (_cost_function X yk s0.w s0.z alpha)

/-- The system matrix `X.T.dot(X) / n_samples + rho * D.T.dot(D)` whose
inverse is precomputed on line 48.  (D may be rectangular here; the
matrix is p × p either way.) -/
noncomputable def sysMatrix {n m p : ℕ} (X : Matrix (Fin n) (Fin p) ℝ)
    (D : Matrix (Fin m) (Fin p) ℝ) (rho : ℝ) : Matrix (Fin p) (Fin p) ℝ :=
  Matrix.of (fun i j => (Xᵀ * X) i j / n) + rho • (Dᵀ * D)

/-- `inv_matrix = np.linalg.inv(X.T.dot(X) / n_samples + rho * D.T.dot(D))`
(line 48).  It takes no response or column argument: it depends only on
X, D and rho. -/
noncomputable def admmInvMatrix {n p : ℕ} (X : Matrix (Fin n) (Fin p) ℝ)
    (D : Matrix (Fin p) (Fin p) ℝ) (rho : ℝ) : Matrix (Fin p) (Fin p) ℝ :=
  (sysMatrix X D rho)⁻¹

/-- `_admm` (lines 21-70) minus the singularity check: initialization of
`w_t`, `z_t`, `h_t`, the precomputed inverse and threshold, then the
independent per-column loops.  The first component is the final `z_t`
matrix (the source squeezes it on return; squeezing is modelled at shape
level by `admmReturnShape`). -/
noncomputable def _admmCore {n p k : ℕ} (X : Matrix (Fin n) (Fin p) ℝ)
    (Y : Matrix (Fin n) (Fin k) ℝ) (D : Matrix (Fin p) (Fin p) ℝ)
    (alpha rho tol : ℝ) (maxIter : ℕ) : Matrix (Fin p) (Fin k) ℝ × (Fin k → ℕ) :=
  let w0 : Matrix (Fin p) (Fin k) ℝ := Matrix.of fun i j => (Xᵀ * Y) i j / n
  let z0 := D * w0
  let h0 : Matrix (Fin p) (Fin k) ℝ := 0
  let thr := alpha / rho
  let runs := fun j : Fin k =>
    admmColumnRun X (fun i => Y i j) D (admmInvMatrix X D rho) alpha rho thr tol maxIter
      ⟨fun i => w0 i j, fun i => z0 i j, fun i => h0 i j⟩
  (Matrix.of fun i j => ((runs j).1).z i, fun j => (runs j).2)

/-- `_admm` with the behaviour of `np.linalg.inv` on a singular argument
made explicit: `np.linalg.inv` raises `LinAlgError` when its argument is
singular, which the embedding models as `none`; otherwise the solve runs
to completion. -/
noncomputable def _admm {n p k : ℕ} (X : Matrix (Fin n) (Fin p) ℝ)
    (Y : Matrix (Fin n) (Fin k) ℝ) (D : Matrix (Fin p) (Fin p) ℝ)
    (alpha rho tol : ℝ) (maxIter : ℕ) :
    Option (Matrix (Fin p) (Fin k) ℝ × (Fin k → ℕ)) :=
  if (sysMatrix X D rho).det = 0 then none
  else some (_admmCore X Y D alpha rho tol maxIter)

/-- Gap between the costs of consecutive states along the trajectory of
`step` from `s0`: the quantity `np.abs(cost - pre_cost)` compared to
`tol` at loop index t. -/
noncomputable def admmGap {p : ℕ} (step : ColState p → ColState p)
    (costOf : ColState p → ℝ) (s0 : ColState p) (t : ℕ) : ℝ :=
  |costOf (step^[t + 1] s0) - costOf (step^[t] s0)|

/- ## Helper lemmas -/

lemma real_sign_neg_eq (a : ℝ) : Real.sign (-a) = -Real.sign a := by
  rcases lt_trichotomy a 0 with h | h | h
  · rw [Real.sign_of_neg h, Real.sign_of_pos (by linarith)]
    norm_num
  · simp [h, Real.sign_zero]
  · rw [Real.sign_of_pos h, Real.sign_of_neg (by linarith)]

/- ## Claims -/

/-- Claim C3: for every element x and nonnegative threshold t, the soft
threshold maps x to 0 when |x| ≤ t and to x − t·sign x otherwise (x − t
for x > t, x + t for x < −t); it is odd-symmetric, and threshold 0 is the
identity. -/
theorem soft_threshold_spec {m : ℕ} (x : Fin m → ℝ) (t : ℝ) (ht : 0 ≤ t) (i : Fin m) :
    (|x i| ≤ t → _soft_threshold x t i = 0) ∧
    (t < x i → _soft_threshold x t i = x i - t) ∧
    (x i < -t → _soft_threshold x t i = x i + t) ∧
    _soft_threshold (fun j => -x j) t i = -_soft_threshold x t i ∧
    _soft_threshold x 0 i = x i := by
  refine ⟨fun h => by simp [_soft_threshold, h], fun h => ?_, fun h => ?_, ?_, ?_⟩
  · have hx : 0 < x i := lt_of_le_of_lt ht h
    have habs : ¬ |x i| ≤ t := by rw [abs_of_pos hx]; linarith
    rw [_soft_threshold, if_neg habs, Real.sign_of_pos hx]
    ring
  · have hx : x i < 0 := lt_of_lt_of_le h (by linarith)
    have habs : ¬ |x i| ≤ t := by rw [abs_of_neg hx]; linarith
    rw [_soft_threshold, if_neg habs, Real.sign_of_neg hx]
    ring
  · by_cases h : |x i| ≤ t
    · simp [_soft_threshold, h, abs_neg]
    · simp only [_soft_threshold, abs_neg, if_neg h, real_sign_neg_eq]
      ring
  · by_cases h : |x i| ≤ 0
    · have hx : x i = 0 := abs_nonpos_iff.mp h
      simp [_soft_threshold, hx]
    · rw [_soft_threshold, if_neg h]
      ring

/-- Witness for C3 at x = ![5], t = 2, i = 0. -/
theorem soft_threshold_spec_witness :
    (0 : ℝ) ≤ 2 ∧
    ((|(![5] : Fin 1 → ℝ) 0| ≤ 2 → _soft_threshold (![5] : Fin 1 → ℝ) 2 0 = 0) ∧
      (2 < (![5] : Fin 1 → ℝ) 0 → _soft_threshold (![5] : Fin 1 → ℝ) 2 0 = (![5] : Fin 1 → ℝ) 0 - 2) ∧
      ((![5] : Fin 1 → ℝ) 0 < -2 → _soft_threshold (![5] : Fin 1 → ℝ) 2 0 = (![5] : Fin 1 → ℝ) 0 + 2) ∧
      _soft_threshold (fun j => -(![5] : Fin 1 → ℝ) j) 2 0 = -_soft_threshold (![5] : Fin 1 → ℝ) 2 0 ∧
      _soft_threshold (![5] : Fin 1 → ℝ) 0 0 = (![5] : Fin 1 → ℝ) 0) :=
  ⟨by norm_num, soft_threshold_spec ![5] 2 (by norm_num) 0⟩

/-- Claim C1: one pass of the inner loop applies, in order, the W-update
w ← M·(Xᵀy/n + rho·Dᵀ(z − h/rho)), the Z-update
z ← SoftThreshold(D·w + h/rho, alpha/rho) on the freshly updated w, and
the H-update h ← h + rho·(D·w − z) on the freshly updated w and z. -/
theorem admm_update_order {n p : ℕ} (X : Matrix (Fin n) (Fin p) ℝ) (yk : Fin n → ℝ)
    (D M : Matrix (Fin p) (Fin p) ℝ) (alpha rho : ℝ) (s : ColState p) :
    (admmStep X yk D M rho (alpha / rho) s).w =
      M.mulVec ((fun i => Xᵀ.mulVec yk i / n) +
        rho • Dᵀ.mulVec (s.z - fun j => s.h j / rho)) ∧
    (admmStep X yk D M rho (alpha / rho) s).z =
      _soft_threshold (D.mulVec (admmStep X yk D M rho (alpha / rho) s).w +
        fun j => s.h j / rho) (alpha / rho) ∧
    (admmStep X yk D M rho (alpha / rho) s).h =
      s.h + rho • (D.mulVec (admmStep X yk D M rho (alpha / rho) s).w -
        (admmStep X yk D M rho (alpha / rho) s).z) :=
  ⟨rfl, rfl, rfl⟩

/-- Claim C4 (code evaluated at the failing input): with X of shape
2 × 3, y of shape 2 × 1 and D of shape 4 × 3, the initialization of
`_admm` gives `w_t` shape (3, 1), `z_t` shape (4, 1), and — because
line 45 allocates `h_t = np.zeros(w_t.shape)` — `h_t` shape (3, 1),
which differs from `z_t`'s shape. -/
theorem admm_h_shape_follows_w :
    admmInitShapes (2, 3) (2, 1) (4, 3) = some ((3, 1), (4, 1), (3, 1)) ∧
    ((3, 1) : ℕ × ℕ) ≠ ((4, 1) : ℕ × ℕ) := by decide

/-- Counterexample to claim C6: the first return value of `_admm` is
`np.squeeze(z_t)`, so for a 3 × 1 final `z_t` (k = 1) the returned array
has shape (3,), one-dimensional, not the two-dimensional m × k shape the
claim asserts. -/
theorem admm_return_squeezed :
    admmReturnShape 3 1 ≠ [3, 1] ∧ admmReturnShape 3 1 = [3] := by decide

/-- Claim C6 as amended: entry (i, j) of the solver's coefficient matrix
is the i-th component of the z-field — the auxiliary variable, not the
primal w — of the final state of column j's run (the run on the j-th
slices of the shared initial matrices, with the shared inverse), and the
second result is that run's iteration count for each of the k columns;
but the returned array is `np.squeeze` of the m × k matrix, so size-one
axes are dropped (1-D output when m = 1 or k = 1). -/
theorem admm_returns_z {n p k : ℕ} (X : Matrix (Fin n) (Fin p) ℝ)
    (Y : Matrix (Fin n) (Fin k) ℝ) (D : Matrix (Fin p) (Fin p) ℝ)
    (alpha rho tol : ℝ) (maxIter : ℕ) :
    (∀ (i : Fin p) (j : Fin k), (_admmCore X Y D alpha rho tol maxIter).1 i j =
      ((admmColumnRun X (fun l => Y l j) D (admmInvMatrix X D rho) alpha rho (alpha / rho)
          tol maxIter
          ⟨fun i2 => (Matrix.of fun a b => (Xᵀ * Y) a b / n : Matrix (Fin p) (Fin k) ℝ) i2 j,
           fun i2 => (D * Matrix.of fun a b => (Xᵀ * Y) a b / n) i2 j,
           fun i2 => (0 : Matrix (Fin p) (Fin k) ℝ) i2 j⟩).1).z i) ∧
    (∀ j : Fin k, (_admmCore X Y D alpha rho tol maxIter).2 j =
      (admmColumnRun X (fun l => Y l j) D (admmInvMatrix X D rho) alpha rho (alpha / rho)
          tol maxIter
          ⟨fun i2 => (Matrix.of fun a b => (Xᵀ * Y) a b / n : Matrix (Fin p) (Fin k) ℝ) i2 j,
           fun i2 => (D * Matrix.of fun a b => (Xᵀ * Y) a b / n) i2 j,
           fun i2 => (0 : Matrix (Fin p) (Fin k) ℝ) i2 j⟩).2) ∧
    (∀ m q : ℕ, admmReturnShape m q =
      (if m = 1 then [] else [m]) ++ (if q = 1 then [] else [q])) := by
  refine ⟨fun i j => rfl, fun j => rfl, fun m q => ?_⟩
  by_cases hm : m = 1 <;> by_cases hq : q = 1 <;>
    simp [admmReturnShape, squeezeShape, List.filter, hm, hq]

/-- Claim C2: the cost function is exactly the (non-squared) Euclidean
norm of the residual divided by the number of samples plus alpha times
the L1 norm of z; at a concrete input it differs from the halved squared
error divided by n that the docstring suggests. -/
theorem cost_function_spec :
    (∀ (n p q : ℕ) (X : Matrix (Fin n) (Fin p) ℝ) (y : Fin n → ℝ) (w : Fin p → ℝ)
        (z : Fin q → ℝ) (alpha : ℝ),
      _cost_function X y w z alpha =
        ‖((WithLp.equiv 2 (Fin n → ℝ)).symm (fun i => y i - X.mulVec w i) :
            EuclideanSpace ℝ (Fin n))‖ / n + alpha * ∑ j, |z j|) ∧
    _cost_function !![(1 : ℝ)] ![3] ![0] ![0] 0 ≠
      1 / (2 * 1) * ∑ i : Fin 1, ((![3] : Fin 1 → ℝ) i - !![(1 : ℝ)].mulVec ![0] i) ^ 2 +
        0 * ∑ j : Fin 1, |(![0] : Fin 1 → ℝ) j| := by
  constructor
  · intro n p q X y w z alpha
    rw [EuclideanSpace.norm_eq]
    simp [_cost_function, Real.norm_eq_abs, sq_abs]
  · have h9 : Real.sqrt 9 = 3 := by
      rw [show (9 : ℝ) = 3 ^ 2 by norm_num, Real.sqrt_sq (by norm_num : (0:ℝ) ≤ 3)]
    simp [_cost_function, Matrix.mulVec, Matrix.dotProduct, Fin.sum_univ_one]
    norm_num [h9]

lemma admmLoop_exhaust {p : ℕ} (step : ColState p → ColState p)
    (costOf : ColState p → ℝ) (tol : ℝ) (s0 : ColState p) :
    ∀ fuel t0, (∀ d, d < fuel → ¬ admmGap step costOf s0 (t0 + d) < tol) →
      admmLoop step costOf tol fuel t0 (step^[t0] s0) (costOf (step^[t0] s0)) =
        (step^[t0 + fuel] s0, t0 + fuel - 1) := by
  intro fuel
  induction fuel with
  | zero => intro t0 _; simp [admmLoop]
  | succ f ih =>
      intro t0 hno
      have hs1 : step (step^[t0] s0) = step^[t0 + 1] s0 :=
        (Function.iterate_succ_apply' step t0 s0).symm
      have hgap : ¬ |costOf (step (step^[t0] s0)) - costOf (step^[t0] s0)| < tol := by
        rw [hs1]
        exact hno 0 (Nat.succ_pos f)
      rw [admmLoop, if_neg hgap, hs1]
      have := ih (t0 + 1) (fun d hd => by
        have := hno (d + 1) (by omega)
        rwa [show t0 + (d + 1) = t0 + 1 + d by omega] at this)
      rw [this, show t0 + 1 + f = t0 + (f + 1) by omega]

lemma admmLoop_first {p : ℕ} (step : ColState p → ColState p)
    (costOf : ColState p → ℝ) (tol : ℝ) (s0 : ColState p) :
    ∀ fuel t0 d, d < fuel → admmGap step costOf s0 (t0 + d) < tol →
      (∀ e, e < d → ¬ admmGap step costOf s0 (t0 + e) < tol) →
      admmLoop step costOf tol fuel t0 (step^[t0] s0) (costOf (step^[t0] s0)) =
        (step^[t0 + d + 1] s0, t0 + d) := by
  intro fuel
  induction fuel with
  | zero => intro t0 d hd; exact absurd hd (Nat.not_lt_zero d)
  | succ f ih =>
      intro t0 d hd hconv hmin
      have hs1 : step (step^[t0] s0) = step^[t0 + 1] s0 :=
        (Function.iterate_succ_apply' step t0 s0).symm
      cases d with
      | zero =>
          have hgap : |costOf (step (step^[t0] s0)) - costOf (step^[t0] s0)| < tol := by
            rw [hs1]
            simpa [admmGap] using hconv
          rw [admmLoop, if_pos hgap, hs1]
          simp
      | succ e =>
          have hgap : ¬ |costOf (step (step^[t0] s0)) - costOf (step^[t0] s0)| < tol := by
            rw [hs1]
            exact hmin 0 (Nat.succ_pos e)
          rw [admmLoop, if_neg hgap, hs1]
          have := ih (t0 + 1) e (by omega)
            (by rwa [show t0 + 1 + e = t0 + (e + 1) by omega])
            (fun e2 he2 => by
              have := hmin (e2 + 1) (by omega)
              rwa [show t0 + (e2 + 1) = t0 + 1 + e2 by omega] at this)
          rw [this, show t0 + 1 + e = t0 + (e + 1) by omega]

/-- Claim C5: the recorded iteration count is the 0-based loop index at
which the convergence test first succeeds; if no gap within the budget
drops below tol, the loop exhausts max_iter iterations and records
max_iter − 1, still returning the current state (non-convergence is not
an error). -/
theorem admm_iteration_count {n p : ℕ} (X : Matrix (Fin n) (Fin p) ℝ) (yk : Fin n → ℝ)
    (D M : Matrix (Fin p) (Fin p) ℝ) (alpha rho thr tol : ℝ) (maxIter : ℕ)
    (s0 : ColState p) (_hmax : 1 ≤ maxIter) :
    (∃ t, t < maxIter ∧
      admmGap (admmStep X yk D M rho thr) (fun s => _cost_function X yk s.w s.z alpha) s0 t < tol ∧
      (∀ u, u < t →
        ¬ admmGap (admmStep X yk D M rho thr) (fun s => _cost_function X yk s.w s.z alpha) s0 u < tol) ∧
      admmColumnRun X yk D M alpha rho thr tol maxIter s0 =
        ((admmStep X yk D M rho thr)^[t + 1] s0, t)) ∨
    ((∀ t, t < maxIter →
        ¬ admmGap (admmStep X yk D M rho thr) (fun s => _cost_function X yk s.w s.z alpha) s0 t < tol) ∧
      admmColumnRun X yk D M alpha rho thr tol maxIter s0 =
        ((admmStep X yk D M rho thr)^[maxIter] s0, maxIter - 1)) := by
  classical
  set step := admmStep X yk D M rho thr with hstep
  set costOf := fun s : ColState p => _cost_function X yk s.w s.z alpha with hcost
  have hrun : admmColumnRun X yk D M alpha rho thr tol maxIter s0 =
      admmLoop step costOf tol maxIter 0 (step^[0] s0) (costOf (step^[0] s0)) := by
    simp only [Function.iterate_zero_apply]
    rfl
  by_cases hc : ∃ t, t < maxIter ∧ admmGap step costOf s0 t < tol
  · left
    refine ⟨Nat.find hc, (Nat.find_spec hc).1, (Nat.find_spec hc).2, ?_, ?_⟩
    · intro u hu hg
      exact Nat.find_min hc hu ⟨lt_trans hu (Nat.find_spec hc).1, hg⟩
    · rw [hrun]
      have := admmLoop_first step costOf tol s0 maxIter 0 (Nat.find hc)
        ((Nat.find_spec hc).1)
        (by simpa using (Nat.find_spec hc).2)
        (fun e he => by
          simpa using fun hg => Nat.find_min hc he ⟨lt_trans he (Nat.find_spec hc).1, hg⟩)
      simpa using this
  · right
    have hall : ∀ t, t < maxIter → ¬ admmGap step costOf s0 t < tol :=
      fun t ht hg => hc ⟨t, ht, hg⟩
    refine ⟨hall, ?_⟩
    rw [hrun]
    have := admmLoop_exhaust step costOf tol s0 maxIter 0
      (fun d hd => by simpa using hall d hd)
    simpa using this

/-- Claim C10: with max_iter ≥ 1 the update is applied at least once
before any convergence test, so the run returns the state after r + 1
update steps for some recorded count r with r ≤ max_iter − 1; the
returned column is an updated state, never the untouched initial one. -/
theorem admm_first_update_before_test {n p : ℕ} (X : Matrix (Fin n) (Fin p) ℝ)
    (yk : Fin n → ℝ) (D M : Matrix (Fin p) (Fin p) ℝ) (alpha rho thr tol : ℝ)
    (maxIter : ℕ) (s0 : ColState p) (hmax : 1 ≤ maxIter) :
    ∃ r, r + 1 ≤ maxIter ∧
      admmColumnRun X yk D M alpha rho thr tol maxIter s0 =
        ((admmStep X yk D M rho thr)^[r + 1] s0, r) := by
  classical
  set step := admmStep X yk D M rho thr with hstep
  set costOf := fun s : ColState p => _cost_function X yk s.w s.z alpha with hcost
  have hrun : admmColumnRun X yk D M alpha rho thr tol maxIter s0 =
      admmLoop step costOf tol maxIter 0 (step^[0] s0) (costOf (step^[0] s0)) := by
    simp only [Function.iterate_zero_apply]
    rfl
  by_cases hc : ∃ t, t < maxIter ∧ admmGap step costOf s0 t < tol
  · refine ⟨Nat.find hc, (Nat.find_spec hc).1, ?_⟩
    rw [hrun]
    have := admmLoop_first step costOf tol s0 maxIter 0 (Nat.find hc)
      ((Nat.find_spec hc).1)
      (by simpa using (Nat.find_spec hc).2)
      (fun e he => by
        simpa using fun hg => Nat.find_min hc he ⟨lt_trans he (Nat.find_spec hc).1, hg⟩)
    simpa using this
  · refine ⟨maxIter - 1, by omega, ?_⟩
    rw [hrun]
    have := admmLoop_exhaust step costOf tol s0 maxIter 0
      (fun d hd => by simpa using fun hg => hc ⟨d, hd, hg⟩)
    rw [show maxIter - 1 + 1 = maxIter by omega]
    simpa using this

/-- Witness for C5 at a concrete 1 × 1 problem with max_iter = 1. -/
theorem admm_iteration_count_witness :
    1 ≤ 1 ∧
    ((∃ t, t < 1 ∧
      admmGap (admmStep !![(1 : ℝ)] ![1] !![1] !![1] 1 0)
        (fun s => _cost_function !![(1 : ℝ)] ![1] s.w s.z 0) ⟨![0], ![0], ![0]⟩ t < 1 ∧
      (∀ u, u < t →
        ¬ admmGap (admmStep !![(1 : ℝ)] ![1] !![1] !![1] 1 0)
          (fun s => _cost_function !![(1 : ℝ)] ![1] s.w s.z 0) ⟨![0], ![0], ![0]⟩ u < 1) ∧
      admmColumnRun !![(1 : ℝ)] ![1] !![1] !![1] 0 1 0 1 1 ⟨![0], ![0], ![0]⟩ =
        ((admmStep !![(1 : ℝ)] ![1] !![1] !![1] 1 0)^[t + 1] ⟨![0], ![0], ![0]⟩, t)) ∨
    ((∀ t, t < 1 →
        ¬ admmGap (admmStep !![(1 : ℝ)] ![1] !![1] !![1] 1 0)
          (fun s => _cost_function !![(1 : ℝ)] ![1] s.w s.z 0) ⟨![0], ![0], ![0]⟩ t < 1) ∧
      admmColumnRun !![(1 : ℝ)] ![1] !![1] !![1] 0 1 0 1 1 ⟨![0], ![0], ![0]⟩ =
        ((admmStep !![(1 : ℝ)] ![1] !![1] !![1] 1 0)^[1] ⟨![0], ![0], ![0]⟩, 1 - 1))) :=
  ⟨by decide, admm_iteration_count !![(1 : ℝ)] ![1] !![1] !![1] 0 1 0 1 1
    ⟨![0], ![0], ![0]⟩ (by decide)⟩

/-- Witness for C10 at a concrete 1 × 1 problem with max_iter = 2. -/
theorem admm_first_update_before_test_witness :
    1 ≤ 2 ∧
    ∃ r, r + 1 ≤ 2 ∧
      admmColumnRun !![(2 : ℝ)] ![1] !![1] !![1] 0 1 0 1 2 ⟨![0], ![0], ![0]⟩ =
        ((admmStep !![(2 : ℝ)] ![1] !![1] !![1] 1 0)^[r + 1] ⟨![0], ![0], ![0]⟩, r) :=
  ⟨by decide, admm_first_update_before_test !![(2 : ℝ)] ![1] !![1] !![1] 0 1 0 1 2
    ⟨![0], ![0], ![0]⟩ (by decide)⟩

/-- Claim C8: the solve initializes W₀ = Xᵀ·Y/n, Z₀ = D·W₀, H₀ = 0 and
precomputes M = inverse(XᵀX/n + rho·DᵀD) and threshold = alpha/rho once,
outside the per-column loop: column j of the result is the column run on
the j-th slices of those shared initial matrices, with the same
`admmInvMatrix X D rho` — a function of X, D, rho only — for every
column. -/
theorem admm_shared_precomputation {n p k : ℕ} (X : Matrix (Fin n) (Fin p) ℝ)
    (Y : Matrix (Fin n) (Fin k) ℝ) (D : Matrix (Fin p) (Fin p) ℝ)
    (alpha rho tol : ℝ) (maxIter : ℕ) :
    _admmCore X Y D alpha rho tol maxIter =
      (Matrix.of fun i j =>
        ((admmColumnRun X (fun l => Y l j) D (admmInvMatrix X D rho) alpha rho (alpha / rho)
            tol maxIter
            ⟨fun i2 => Xᵀ.mulVec (fun l => Y l j) i2 / n,
             fun i2 => D.mulVec (fun l => Xᵀ.mulVec (fun l2 => Y l2 j) l / n) i2,
             fun _ => 0⟩).1).z i,
       fun j =>
        (admmColumnRun X (fun l => Y l j) D (admmInvMatrix X D rho) alpha rho (alpha / rho)
            tol maxIter
            ⟨fun i2 => Xᵀ.mulVec (fun l => Y l j) i2 / n,
             fun i2 => D.mulVec (fun l => Xᵀ.mulVec (fun l2 => Y l2 j) l / n) i2,
             fun _ => 0⟩).2) := by
  have hstate : ∀ j : Fin k,
      (⟨fun i => (Matrix.of fun a b => (Xᵀ * Y) a b / n : Matrix (Fin p) (Fin k) ℝ) i j,
        fun i => (D * Matrix.of fun a b => (Xᵀ * Y) a b / n) i j,
        fun i => (0 : Matrix (Fin p) (Fin k) ℝ) i j⟩ : ColState p) =
      (⟨fun i2 => Xᵀ.mulVec (fun l => Y l j) i2 / n,
        fun i2 => D.mulVec (fun l => Xᵀ.mulVec (fun l2 => Y l2 j) l / n) i2,
        fun _ => 0⟩ : ColState p) := by
    intro j
    simp only [ColState.mk.injEq]
    refine ⟨funext fun i => ?_, funext fun i => ?_, funext fun i => rfl⟩
    · simp [Matrix.mul_apply, Matrix.mulVec, Matrix.dotProduct]
    · simp [Matrix.mul_apply, Matrix.mulVec, Matrix.dotProduct]
  have key : ∀ j : Fin k,
      admmColumnRun X (fun i => Y i j) D (admmInvMatrix X D rho) alpha rho (alpha / rho)
        tol maxIter
        ⟨fun i => (Matrix.of fun a b => (Xᵀ * Y) a b / n : Matrix (Fin p) (Fin k) ℝ) i j,
         fun i => (D * Matrix.of fun a b => (Xᵀ * Y) a b / n) i j,
         fun i => (0 : Matrix (Fin p) (Fin k) ℝ) i j⟩ =
      admmColumnRun X (fun l => Y l j) D (admmInvMatrix X D rho) alpha rho (alpha / rho)
        tol maxIter
        ⟨fun i2 => Xᵀ.mulVec (fun l => Y l j) i2 / n,
         fun i2 => D.mulVec (fun l => Xᵀ.mulVec (fun l2 => Y l2 j) l / n) i2,
         fun _ => 0⟩ :=
    fun j => congrArg
      (admmColumnRun X (fun l => Y l j) D (admmInvMatrix X D rho) alpha rho (alpha / rho)
        tol maxIter) (hstate j)
  show (Matrix.of fun i j =>
      ((admmColumnRun X (fun l => Y l j) D (admmInvMatrix X D rho) alpha rho (alpha / rho)
          tol maxIter
          ⟨fun i => (Matrix.of fun a b => (Xᵀ * Y) a b / n : Matrix (Fin p) (Fin k) ℝ) i j,
           fun i => (D * Matrix.of fun a b => (Xᵀ * Y) a b / n) i j,
           fun i => (0 : Matrix (Fin p) (Fin k) ℝ) i j⟩).1).z i,
    fun j =>
      (admmColumnRun X (fun l => Y l j) D (admmInvMatrix X D rho) alpha rho (alpha / rho)
          tol maxIter
          ⟨fun i => (Matrix.of fun a b => (Xᵀ * Y) a b / n : Matrix (Fin p) (Fin k) ℝ) i j,
           fun i => (D * Matrix.of fun a b => (Xᵀ * Y) a b / n) i j,
           fun i => (0 : Matrix (Fin p) (Fin k) ℝ) i j⟩).2) = _
  simp only [key]

/-- Claim C9: target columns are solved independently: for every column
index j, solving the single-column response built from column j of Y
produces exactly the restriction (coefficient column and iteration
count) of the joint multi-column solve — including the singular-system
outcome, which does not depend on Y at all. -/
theorem admm_column_independence {n p k : ℕ} (X : Matrix (Fin n) (Fin p) ℝ)
    (Y : Matrix (Fin n) (Fin k) ℝ) (D : Matrix (Fin p) (Fin p) ℝ)
    (alpha rho tol : ℝ) (maxIter : ℕ) (j : Fin k) :
    _admm X (Matrix.of fun i (_ : Fin 1) => Y i j) D alpha rho tol maxIter =
      Option.map (fun r => (Matrix.of fun i (_ : Fin 1) => r.1 i j, fun _ => r.2 j))
        (_admm X Y D alpha rho tol maxIter) := by
  by_cases hdet : (sysMatrix X D rho).det = 0
  · simp [_admm, hdet]
  · simp only [_admm, if_neg hdet, Option.map_some']
    rfl

/-- Claim C7 (code evaluated at the failing input): with X = [[1, 0]]
(n = 1, p = 2), rho = 1 and the rectangular transform
D = [[1, 0], [0, 1], [0, 0]] (m = 3), the system matrix
XᵀX/n + rho·DᵀD is nonsingular — so `np.linalg.inv` does not raise — yet
the solve still aborts: `z_t[:, k]` has length 3 while `h_t[:, k]` has
length 2 (h was allocated with w's shape), and numpy cannot broadcast
lengths 3 and 2 in the first W-update's `z_t[:, k] - h_t[:, k] / rho`.
Hence singularity is not the only condition that aborts a solve. -/
theorem admm_nonsingular_shape_abort :
    (sysMatrix !![(1 : ℝ), 0] !![(1 : ℝ), 0; 0, 1; 0, 0] 1).det ≠ 0 ∧
    admmInitShapes (1, 2) (1, 1) (3, 2) = some ((2, 1), (3, 1), (2, 1)) ∧
    broadcast1 3 2 = none := by
  refine ⟨?_, by decide, by decide⟩
  have hsys : sysMatrix !![(1 : ℝ), 0] !![(1 : ℝ), 0; 0, 1; 0, 0] 1 = !![2, 0; 0, 1] := by
    ext i j
    fin_cases i <;> fin_cases j <;>
      norm_num [sysMatrix, Matrix.mul_apply, Fin.sum_univ_succ]
  rw [hsys, Matrix.det_fin_two_of]
  norm_num
